import Mathlib

/-!
Verification of the convolution geometry and arithmetic core of the
CNN Hyperparameter Playground (`src/CnnHyperparamPlayground.tsx`).

The definitions below are a shallow embedding of the component's pure
logic: all slider values are integers, JavaScript number arithmetic on
them is exact, `Math.floor` of a real quotient is modelled as the floor
of the corresponding rational, and `Math.round` as `⌊x + 1/2⌋`.
-/

namespace CnnPlayground

/-- Hyperparameter snapshot: the six slider values consumed by the
component (`inW`, `inH`, `kernel`, `stride`, `padding`, `dilation`). -/
structure Params where
  inW : ℤ
  inH : ℤ
  kernel : ℤ
  stride : ℤ
  padding : ℤ
  dilation : ℤ

/-- Source line 30: `effKernel = (kernel - 1) * dilation + 1`. -/
def effKernel (p : Params) : ℤ := (p.kernel - 1) * p.dilation + 1

/-- The spec's `outputDimension(inputSize, padding, effectiveKernel, stride)`.
The source computes `Math.floor((inputSize + 2*padding - effKernel) / stride + 1)`
(real division, then floor; source lines 32-33). -/
def outputDimension (inputSize padding effectiveKernel stride : ℤ) : ℤ :=
  ⌊((inputSize + 2 * padding - effectiveKernel : ℤ) : ℚ) / (stride : ℚ) + 1⌋

/-- Output width `outW` (source line 32). -/
def outW (p : Params) : ℤ := outputDimension p.inW p.padding (effKernel p) p.stride

/-- Output height `outH` (source line 33). -/
def outH (p : Params) : ℤ := outputDimension p.inH p.padding (effKernel p) p.stride

/-- Receptive-field bounds on the padded input for output cell `(ox, oy)`
(source lines 68-74): `start = out * stride`, `end = start + effKernel - 1`. -/
structure RF where
  startX : ℤ
  startY : ℤ
  endX : ℤ
  endY : ℤ

/-- Source lines 68-74: `rfBounds`. -/
def rfBounds (p : Params) (ox oy : ℤ) : RF :=
  { startX := ox * p.stride
    startY := oy * p.stride
    endX := ox * p.stride + effKernel p - 1
    endY := oy * p.stride + effKernel p - 1 }

/-- Source line 88: `Math.floor((selRF.startX + selRF.endX) / 2)`. -/
def kernelCenterX (rf : RF) : ℤ := ⌊((rf.startX + rf.endX : ℤ) : ℚ) / 2⌋

/-- Source line 89: `Math.floor((selRF.startY + selRF.endY) / 2)`. -/
def kernelCenterY (rf : RF) : ℤ := ⌊((rf.startY + rf.endY : ℤ) : ℚ) / 2⌋

/-- Source lines 86-91: `isKernelCenter`. -/
def isKernelCenter (rf : RF) (ix iy : ℤ) : Prop :=
  ix = kernelCenterX rf ∧ iy = kernelCenterY rf

/-- Source lines 93-104, `isInDilatedKernel`: a padded-input cell is an
active kernel tap when its offsets from the receptive-field start are
non-negative, below the effective kernel size, and divisible by `dilation`. -/
def isInDilatedKernel (rf : RF) (effK d ix iy : ℤ) : Prop :=
  0 ≤ ix - rf.startX ∧ ix - rf.startX < effK ∧
  0 ≤ iy - rf.startY ∧ iy - rf.startY < effK ∧
  (ix - rf.startX) % d = 0 ∧ (iy - rf.startY) % d = 0

instance (rf : RF) (effK d ix iy : ℤ) : Decidable (isInDilatedKernel rf effK d ix iy) := by
  unfold isInDilatedKernel
  infer_instance

/-- The spec's `kernelTapSet(receptiveField, dilation)`: the cells of the
receptive field satisfying `isInDilatedKernel`. -/
def tapSet (rf : RF) (effK d : ℤ) : Finset (ℤ × ℤ) :=
  ((Finset.Ico rf.startX (rf.startX + effK)) ×ˢ
      (Finset.Ico rf.startY (rf.startY + effK))).filter
    fun q => isInDilatedKernel rf effK d q.1 q.2

/-- Per-axis tap positions: offsets from `s` that are non-negative, below
`effK` and divisible by `d` (decomposition device for `tapSet`). -/
def axisTaps (s effK d : ℤ) : Finset ℤ :=
  (Finset.Ico s (s + effK)).filter fun x => 0 ≤ x - s ∧ x - s < effK ∧ (x - s) % d = 0

/-- Row-major coordinate published at animation counter `ix`:
`x = ix % outW`, `y = ⌊ix / outW⌋` (source lines 54-55), as `(x, y)`. -/
def scanCoord (w ix : ℕ) : ℕ × ℕ := (ix % w, ix / w)

/-- Scan-controller state: the interval counter `ix` and the published
`selected` coordinate. -/
structure ScanSt where
  ix : ℕ
  sel : ℕ × ℕ

/-- Starting a scan: `ix = 0` and `selected = (0,0)` (source lines 46-50). -/
def scanStart : ScanSt := ⟨0, (0, 0)⟩

/-- One interval tick (source lines 52-58): publish the coordinate of the
current counter, then advance the counter modulo `outW * outH`. -/
def scanTick (w h : ℕ) (s : ScanSt) : ScanSt :=
  ⟨(s.ix + 1) % (w * h), scanCoord w s.ix⟩

/-- State after `n` ticks of a scan started on a `w × h` output grid. -/
def scanRun (w h : ℕ) : ℕ → ScanSt
  | 0 => scanStart
  | n + 1 => scanTick w h (scanRun w h n)

/-- The clamp effect run on every geometry change (source lines 36-41):
an out-of-bounds selection is clamped per axis to
`min(current, max(0, dim - 1))`, or nulled when a dimension is non-positive. -/
def clampSelected (w h : ℤ) (sel : Option (ℤ × ℤ)) : Option (ℤ × ℤ) :=
  match sel with
  | none => none
  | some (x, y) =>
    if w ≤ x ∨ h ≤ y then
      if 0 < w ∧ 0 < h then
        some (min x (max 0 (w - 1)), min y (max 0 (h - 1)))
      else
        none
    else
      some (x, y)

/-- Width diagnostic (source line 147), naming both sizes. -/
def widthMsg (p : Params) : String :=
  "Effective kernel (" ++ toString (effKernel p) ++
    ") larger than padded input width (" ++ toString (p.inW + 2 * p.padding) ++ ")"

/-- Height diagnostic (source line 150), naming both sizes. -/
def heightMsg (p : Params) : String :=
  "Effective kernel (" ++ toString (effKernel p) ++
    ") larger than padded input height (" ++ toString (p.inH + 2 * p.padding) ++ ")"

/-- No-output diagnostic (source line 153). -/
def noOutputMsg : String := "Invalid parameters produce no output"

/-- Source lines 144-156, `validateParams`: an accumulator receives the
three diagnostics by conditional pushes, in source order. -/
def validateParams (p : Params) : List String :=
  let issues : List String := []
  let issues :=
    if effKernel p > p.inW + 2 * p.padding then issues ++ [widthMsg p] else issues
  let issues :=
    if effKernel p > p.inH + 2 * p.padding then issues ++ [heightMsg p] else issues
  let issues :=
    if outW p ≤ 0 ∨ outH p ≤ 0 then issues ++ [noOutputMsg] else issues
  issues

/-- JavaScript `Math.round`: round half toward positive infinity. -/
def jsRound (q : ℚ) : ℤ := ⌊q + 1 / 2⌋

/-- Weight lookup `kernelWeights[ky][kx]`; the source only reads it under the in-bounds
guard, so the default value is never produced. -/
def weightAt (w : List (List ℚ)) (ky kx : ℕ) : ℚ := (w.getD ky []).getD kx 0

/-- Input sample for a padded-input coordinate `(ix, iy)` with zero-padding
semantics (source lines 207-211). -/
def sampleAt (p : Params) (input : ℤ → ℤ → ℚ) (ix iy : ℤ) : ℚ :=
  if p.padding ≤ iy ∧ iy < p.padding + p.inH ∧ p.padding ≤ ix ∧ ix < p.padding + p.inW then
    input (iy - p.padding) (ix - p.padding)
  else 0

/-- Multiply-accumulate for one output cell (source lines 199-217): loop
`(ky, kx)` over `[0, kernel)²`, sampling at `start + k*dilation`, and
accumulate `sample * kernelWeights[ky][kx]` only under the weight-matrix
bounds guard `ky < kernelWeights.length && kx < kernelWeights[0].length`. -/
def convCell (p : Params) (input : ℤ → ℤ → ℚ) (w : List (List ℚ)) (ox oy : ℤ) : ℚ :=
  ∑ ky ∈ Finset.range p.kernel.toNat, ∑ kx ∈ Finset.range p.kernel.toNat,
    (if ky < w.length ∧ kx < (w.headD []).length then
      sampleAt p input ((rfBounds p ox oy).startX + (kx : ℤ) * p.dilation)
        ((rfBounds p ox oy).startY + (ky : ℤ) * p.dilation) * weightAt w ky kx
    else 0)

/-- One output cell: `Math.round(sum)` (source line 218). -/
def outputCell (p : Params) (input : ℤ → ℤ → ℚ) (w : List (List ℚ)) (ox oy : ℤ) : ℤ :=
  jsRound (convCell p input w ox oy)

/-- Source lines 192-223, `computeConvolution`: the full output grid. -/
def computeConvolution (p : Params) (input : ℤ → ℤ → ℚ) (w : List (List ℚ)) :
    List (List ℤ) :=
  (List.range (outH p).toNat).map fun oy =>
    (List.range (outW p).toNat).map fun ox => outputCell p input w (ox : ℤ) (oy : ℤ)

/-- Source line 165: `kernelTypes.identity.weights = [[0,0,0],[0,1,0],[0,0,0]]`. -/
def identityWeights : List (List ℚ) := [[0, 0, 0], [0, 1, 0], [0, 0, 0]]

/-- Source line 162: the edge-detect preset weights. -/
def edgeDetectWeights : List (List ℚ) := [[-1, -1, -1], [-1, 8, -1], [-1, -1, -1]]

/-! Supporting lemmas. -/

/-- Floor of an integer quotient over ℚ is floor division (`Int.fdiv`)
whenever the divisor is positive. -/
theorem floor_ratCast_div_eq_fdiv (n s : ℤ) (hs : 1 ≤ s) :
    ⌊(n : ℚ) / (s : ℚ)⌋ = Int.fdiv n s := by
  have h0 : (0 : ℤ) ≤ s := by omega
  have hts : ((s.toNat : ℕ) : ℤ) = s := Int.toNat_of_nonneg h0
  have hq : ((s.toNat : ℕ) : ℚ) = (s : ℚ) := by exact_mod_cast congrArg Int.cast hts
  calc ⌊(n : ℚ) / (s : ℚ)⌋ = ⌊(n : ℚ) / ((s.toNat : ℕ) : ℚ)⌋ := by rw [hq]
    _ = n / ((s.toNat : ℕ) : ℤ) := Rat.floor_intCast_div_natCast n s.toNat
    _ = n / s := by rw [hts]
    _ = Int.fdiv n s := (Int.fdiv_eq_ediv n h0).symm

/-- Floor of an even integer halved over ℚ recovers the integer exactly. -/
theorem two_mul_floor_ratCast_div_two (a : ℤ) (h : 2 ∣ a) :
    2 * ⌊((a : ℤ) : ℚ) / 2⌋ = a := by
  obtain ⟨t, rfl⟩ := h
  have hq : ((2 * t : ℤ) : ℚ) / 2 = (t : ℚ) := by push_cast; ring
  rw [hq, Int.floor_intCast]

/-- Helper shared by the claims below: `outputDimension` as floor division. -/
theorem outputDimension_eq_fdiv (inputSize padding effectiveKernel stride : ℤ)
    (hs : 1 ≤ stride) :
    outputDimension inputSize padding effectiveKernel stride =
      Int.fdiv (inputSize + 2 * padding - effectiveKernel) stride + 1 := by
  unfold outputDimension
  rw [Int.floor_add_one, floor_ratCast_div_eq_fdiv _ _ hs]

/-- For odd `kernelSize`, the kernel center of any receptive field is the
exact midpoint on both axes (helper shared by the claims below). -/
theorem center_exact (p : Params) (hk : Odd p.kernel) (ox oy : ℤ) :
    2 * kernelCenterX (rfBounds p ox oy) =
      (rfBounds p ox oy).startX + (rfBounds p ox oy).endX ∧
    2 * kernelCenterY (rfBounds p ox oy) =
      (rfBounds p ox oy).startY + (rfBounds p ox oy).endY := by
  obtain ⟨m, hm⟩ := hk
  have heff : effKernel p = 2 * (m * p.dilation) + 1 := by
    unfold effKernel; rw [hm]; ring
  constructor
  · have hdvd : 2 ∣ (rfBounds p ox oy).startX + (rfBounds p ox oy).endX := by
      refine ⟨ox * p.stride + m * p.dilation, ?_⟩
      simp only [rfBounds, heff]; ring
    exact two_mul_floor_ratCast_div_two _ hdvd
  · have hdvd : 2 ∣ (rfBounds p ox oy).startY + (rfBounds p ox oy).endY := by
      refine ⟨oy * p.stride + m * p.dilation, ?_⟩
      simp only [rfBounds, heff]; ring
    exact two_mul_floor_ratCast_div_two _ hdvd

/-- Helper shared by the claims below: `validateParams` as an ordered
concatenation of its three conditional
entries (helper shared by the claims below). -/
theorem validateParams_eq (p : Params) :
    validateParams p =
      (if effKernel p > p.inW + 2 * p.padding then [widthMsg p] else []) ++
        (if effKernel p > p.inH + 2 * p.padding then [heightMsg p] else []) ++
        (if outW p ≤ 0 ∨ outH p ≤ 0 then [noOutputMsg] else []) := by
  unfold validateParams
  split_ifs <;> simp

/-- A sum over `range K` of a function cut off above `m ≤ K` is the sum over
`range m`. -/
theorem sum_range_ite_of_le {M : Type*} [AddCommMonoid M] (K m : ℕ) (hm : m ≤ K)
    (f : ℕ → M) :
    (∑ i ∈ Finset.range K, if i < m then f i else 0) = ∑ i ∈ Finset.range m, f i := by
  rw [← Finset.sum_subset (Finset.range_subset.mpr hm)
    (fun i _ hi => if_neg fun h => hi (Finset.mem_range.mpr h))]
  exact Finset.sum_congr rfl fun i hi => if_pos (Finset.mem_range.mp hi)

/-! Claim C3: output-dimension formula. -/

/-- C3. The output-dimension formula: for every `inputSize`, `padding`,
`effectiveKernel` and `stride ≥ 1` — negative numerators included — the
computed dimension is `⌊(inputSize + 2*padding - effectiveKernel)/stride⌋ + 1`
with the mathematical floor (`Int.fdiv` rounds toward negative infinity);
and `inW=12, padding=1, kernelSize=3, dilation=1, stride=1` gives
`effectiveKernelSize = 3` and `outputWidth = 12`. -/
theorem outputDimension_floor (inputSize padding effectiveKernel stride : ℤ)
    (hs : 1 ≤ stride) :
    outputDimension inputSize padding effectiveKernel stride =
      ⌊((inputSize + 2 * padding - effectiveKernel : ℤ) : ℚ) / (stride : ℚ)⌋ + 1 ∧
    outputDimension inputSize padding effectiveKernel stride =
      Int.fdiv (inputSize + 2 * padding - effectiveKernel) stride + 1 ∧
    effKernel ⟨12, 12, 3, 1, 1, 1⟩ = 3 ∧
    outW ⟨12, 12, 3, 1, 1, 1⟩ = 12 := by
  refine ⟨?_, outputDimension_eq_fdiv _ _ _ _ hs, rfl, ?_⟩
  · unfold outputDimension
    rw [Int.floor_add_one]
  · unfold outW outputDimension effKernel
    norm_num

/-- Witness for `outputDimension_floor` at `inputSize=4, padding=0,
effectiveKernel=5, stride=2`: the numerator is negative and the mathematical
floor gives output dimension `0` (truncation toward zero would give `1`). -/
theorem outputDimension_floor_witness :
    (1 : ℤ) ≤ 2 ∧
    (outputDimension 4 0 5 2 =
        ⌊((4 + 2 * 0 - 5 : ℤ) : ℚ) / ((2 : ℤ) : ℚ)⌋ + 1 ∧
      outputDimension 4 0 5 2 = Int.fdiv (4 + 2 * 0 - 5) 2 + 1 ∧
      effKernel ⟨12, 12, 3, 1, 1, 1⟩ = 3 ∧
      outW ⟨12, 12, 3, 1, 1, 1⟩ = 12) ∧
    outputDimension 4 0 5 2 = 0 := by
  refine ⟨by norm_num, outputDimension_floor 4 0 5 2 (by norm_num), ?_⟩
  unfold outputDimension
  norm_num

/-! Claim C8: odd effective kernel and exact center. -/

/-- C8. For odd `kernelSize` and any `dilation ≥ 1`,
`effectiveKernelSize = (kernelSize-1)*dilation + 1` is odd, and for every
receptive field the computed kernel center `⌊(start+end)/2⌋` is the exact
midpoint on both axes: twice the center equals `start + end`. -/
theorem effKernel_odd_and_center_exact (p : Params)
    (hk : Odd p.kernel) (hk1 : 1 ≤ p.kernel) (hd : 1 ≤ p.dilation) :
    Odd (effKernel p) ∧
    ∀ ox oy : ℤ,
      2 * kernelCenterX (rfBounds p ox oy) =
        (rfBounds p ox oy).startX + (rfBounds p ox oy).endX ∧
      2 * kernelCenterY (rfBounds p ox oy) =
        (rfBounds p ox oy).startY + (rfBounds p ox oy).endY := by
  obtain ⟨m, hm⟩ := hk
  have heff : effKernel p = 2 * (m * p.dilation) + 1 := by
    unfold effKernel; rw [hm]; ring
  exact ⟨⟨m * p.dilation, heff⟩, center_exact p ⟨m, hm⟩⟩

/-- Witness for `effKernel_odd_and_center_exact` at
`kernel = 3, stride = 1, padding = 2, dilation = 2` (the Dilated Conv preset). -/
theorem effKernel_odd_and_center_exact_witness :
    Odd (3 : ℤ) ∧ (1 : ℤ) ≤ 3 ∧ (1 : ℤ) ≤ 2 ∧
    (Odd (effKernel ⟨12, 12, 3, 1, 2, 2⟩) ∧
      ∀ ox oy : ℤ,
        2 * kernelCenterX (rfBounds ⟨12, 12, 3, 1, 2, 2⟩ ox oy) =
          (rfBounds ⟨12, 12, 3, 1, 2, 2⟩ ox oy).startX +
            (rfBounds ⟨12, 12, 3, 1, 2, 2⟩ ox oy).endX ∧
        2 * kernelCenterY (rfBounds ⟨12, 12, 3, 1, 2, 2⟩ ox oy) =
          (rfBounds ⟨12, 12, 3, 1, 2, 2⟩ ox oy).startY +
            (rfBounds ⟨12, 12, 3, 1, 2, 2⟩ ox oy).endY) :=
  ⟨by decide, by decide, by decide,
    effKernel_odd_and_center_exact ⟨12, 12, 3, 1, 2, 2⟩ (by decide) (by decide) (by decide)⟩

/-! Claim C10: the kernel center is an active tap. -/

/-- C10. For odd `kernelSize ≥ 1` and `dilation ≥ 1`, the kernel-center cell
of any receptive field is itself an active dilated-kernel tap: its per-axis
offset from the field start is `((kernelSize-1)/2) * dilation`, which is
non-negative, below `effectiveKernel`, and divisible by `dilation`. -/
theorem kernelCenter_isInDilatedKernel (p : Params)
    (hk : Odd p.kernel) (hk1 : 1 ≤ p.kernel) (hd : 1 ≤ p.dilation) :
    ∀ ox oy : ℤ,
      kernelCenterX (rfBounds p ox oy) - (rfBounds p ox oy).startX =
        ((p.kernel - 1) / 2) * p.dilation ∧
      kernelCenterY (rfBounds p ox oy) - (rfBounds p ox oy).startY =
        ((p.kernel - 1) / 2) * p.dilation ∧
      isInDilatedKernel (rfBounds p ox oy) (effKernel p) p.dilation
        (kernelCenterX (rfBounds p ox oy)) (kernelCenterY (rfBounds p ox oy)) := by
  intro ox oy
  obtain ⟨hcx, hcy⟩ := center_exact p hk ox oy
  obtain ⟨m, hm⟩ := hk
  have hm0 : 0 ≤ m := by omega
  have heff : effKernel p = 2 * (m * p.dilation) + 1 := by
    unfold effKernel; rw [hm]; ring
  have hhalf : (p.kernel - 1) / 2 = m := by rw [hm]; omega
  have hx : kernelCenterX (rfBounds p ox oy) - (rfBounds p ox oy).startX =
      m * p.dilation := by
    have hsum : (rfBounds p ox oy).startX + (rfBounds p ox oy).endX =
        2 * ((rfBounds p ox oy).startX + m * p.dilation) := by
      simp only [rfBounds, heff]; ring
    omega
  have hy : kernelCenterY (rfBounds p ox oy) - (rfBounds p ox oy).startY =
      m * p.dilation := by
    have hsum : (rfBounds p ox oy).startY + (rfBounds p ox oy).endY =
        2 * ((rfBounds p ox oy).startY + m * p.dilation) := by
      simp only [rfBounds, heff]; ring
    omega
  have hmd0 : 0 ≤ m * p.dilation := mul_nonneg hm0 (by omega)
  have hmod : m * p.dilation % p.dilation = 0 :=
    Int.emod_eq_zero_of_dvd (dvd_mul_left p.dilation m)
  refine ⟨by rw [hx, hhalf], by rw [hy, hhalf], ?_⟩
  unfold isInDilatedKernel
  rw [hx, hy, heff]
  exact ⟨hmd0, by omega, hmd0, by omega, hmod, hmod⟩

/-- Witness for `kernelCenter_isInDilatedKernel` at
`kernel = 5, stride = 2, padding = 2, dilation = 1`. -/
theorem kernelCenter_isInDilatedKernel_witness :
    Odd (5 : ℤ) ∧ (1 : ℤ) ≤ 5 ∧ (1 : ℤ) ≤ 1 ∧
    (∀ ox oy : ℤ,
      kernelCenterX (rfBounds ⟨12, 12, 5, 2, 2, 1⟩ ox oy) -
          (rfBounds ⟨12, 12, 5, 2, 2, 1⟩ ox oy).startX =
        ((5 - 1) / 2) * 1 ∧
      kernelCenterY (rfBounds ⟨12, 12, 5, 2, 2, 1⟩ ox oy) -
          (rfBounds ⟨12, 12, 5, 2, 2, 1⟩ ox oy).startY =
        ((5 - 1) / 2) * 1 ∧
      isInDilatedKernel (rfBounds ⟨12, 12, 5, 2, 2, 1⟩ ox oy)
        (effKernel ⟨12, 12, 5, 2, 2, 1⟩) 1
        (kernelCenterX (rfBounds ⟨12, 12, 5, 2, 2, 1⟩ ox oy))
        (kernelCenterY (rfBounds ⟨12, 12, 5, 2, 2, 1⟩ ox oy))) :=
  ⟨by decide, by decide, by decide,
    kernelCenter_isInDilatedKernel ⟨12, 12, 5, 2, 2, 1⟩ (by decide) (by decide) (by decide)⟩

/-! Claim C1: scan controller. -/

/-- The animation counter after `n` ticks is `n` modulo `outW * outH`. -/
theorem scanRun_ix (w h : ℕ) (hw : 0 < w) (hh : 0 < h) (n : ℕ) :
    (scanRun w h n).ix = n % (w * h) := by
  induction n with
  | zero => simp [scanRun, scanStart]
  | succ n ih =>
    simp only [scanRun, scanTick, ih]
    rw [Nat.add_mod (n % (w * h)) 1, Nat.add_mod n 1, Nat.mod_mod]

/-- C1 counterexample. On a `2 × 1` output (both dimensions positive), after
exactly `width*height = 2` ticks the selected coordinate is `(1, 0)`, not
`(0, 0)`: the first tick republishes index 0, so the cycle closes one tick
later than the claim states. -/
theorem scan_cycle_counterexample :
    0 < 2 ∧ 0 < 1 ∧ (scanRun 2 1 (2 * 1)).sel ≠ ((0, 0) : ℕ × ℕ) := by
  refine ⟨by decide, by decide, ?_⟩
  decide

/-- C1 amended. When a scan starts on positive output dimensions, `selected`
is reset to `(0,0)`; tick `n+1` publishes the row-major coordinate of index
`n mod (width*height)` — so the first tick republishes `(0,0)` and every
later tick advances by exactly one coordinate — and `selected` returns to
`(0,0)` after exactly `width*height + 1` ticks. -/
theorem scanRun_sel (w h : ℕ) (hw : 0 < w) (hh : 0 < h) :
    (scanRun w h 0).sel = (0, 0) ∧
    (∀ n : ℕ, (scanRun w h (n + 1)).sel = scanCoord w (n % (w * h))) ∧
    (scanRun w h (w * h + 1)).sel = (0, 0) := by
  have hsel : ∀ n : ℕ, (scanRun w h (n + 1)).sel = scanCoord w (n % (w * h)) := by
    intro n
    simp only [scanRun, scanTick, scanRun_ix w h hw hh n]
  refine ⟨rfl, hsel, ?_⟩
  rw [hsel (w * h), Nat.mod_self]
  simp [scanCoord]

/-- Witness for `scanRun_sel` on a `2 × 2` output grid. -/
theorem scanRun_sel_witness :
    0 < 2 ∧ 0 < 2 ∧
    ((scanRun 2 2 0).sel = (0, 0) ∧
      (∀ n : ℕ, (scanRun 2 2 (n + 1)).sel = scanCoord 2 (n % (2 * 2))) ∧
      (scanRun 2 2 (2 * 2 + 1)).sel = (0, 0)) :=
  ⟨by decide, by decide, scanRun_sel 2 2 (by decide) (by decide)⟩

/-! Claim C5: selection invariant and clamping. -/

/-- C5. Selection invariant restored by the clamp effect: for a selection
with non-negative coordinates, positive output dimensions yield an in-bounds
selection, non-positive dimensions yield `null`, an out-of-bounds selection
with positive dimensions is clamped per axis to `min(current, dim - 1)`, and
shrinking `outputWidth` from 5 to 2 turns `(4, 0)` into `(1, 0)`. -/
theorem clampSelected_spec (w h x y : ℤ) (hx : 0 ≤ x) (hy : 0 ≤ y) :
    (0 < w ∧ 0 < h →
      ∃ x' y', clampSelected w h (some (x, y)) = some (x', y') ∧
        0 ≤ x' ∧ x' < w ∧ 0 ≤ y' ∧ y' < h) ∧
    (w ≤ 0 ∨ h ≤ 0 → clampSelected w h (some (x, y)) = none) ∧
    (0 < w ∧ 0 < h → w ≤ x ∨ h ≤ y →
      clampSelected w h (some (x, y)) = some (min x (w - 1), min y (h - 1))) ∧
    clampSelected 2 5 (some (4, 0)) = some (1, 0) := by
  have hdef : clampSelected w h (some (x, y)) =
      if w ≤ x ∨ h ≤ y then
        if 0 < w ∧ 0 < h then
          some (min x (max 0 (w - 1)), min y (max 0 (h - 1)))
        else none
      else some (x, y) := rfl
  refine ⟨?_, ?_, ?_, by decide⟩
  · rintro ⟨hw, hh⟩
    rw [hdef]
    by_cases hoob : w ≤ x ∨ h ≤ y
    · rw [if_pos hoob, if_pos ⟨hw, hh⟩]
      exact ⟨_, _, rfl, by omega, by omega, by omega, by omega⟩
    · rw [if_neg hoob]
      exact ⟨x, y, rfl, hx, by omega, hy, by omega⟩
  · intro hnp
    rw [hdef, if_pos (by omega), if_neg (by omega)]
  · rintro ⟨hw, hh⟩ hoob
    rw [hdef, if_pos hoob, if_pos ⟨hw, hh⟩]
    have h1 : max 0 (w - 1) = w - 1 := by omega
    have h2 : max 0 (h - 1) = h - 1 := by omega
    rw [h1, h2]

/-- Witness for `clampSelected_spec` at `w = 2, h = 5, selected = (4, 0)`
(the spec's shrink example). -/
theorem clampSelected_spec_witness :
    (0 : ℤ) ≤ 4 ∧ (0 : ℤ) ≤ 0 ∧
    ((0 < (2 : ℤ) ∧ 0 < (5 : ℤ) →
        ∃ x' y', clampSelected 2 5 (some (4, 0)) = some (x', y') ∧
          0 ≤ x' ∧ x' < 2 ∧ 0 ≤ y' ∧ y' < 5) ∧
      ((2 : ℤ) ≤ 0 ∨ (5 : ℤ) ≤ 0 → clampSelected 2 5 (some (4, 0)) = none) ∧
      (0 < (2 : ℤ) ∧ 0 < (5 : ℤ) → (2 : ℤ) ≤ 4 ∨ (5 : ℤ) ≤ 0 →
        clampSelected 2 5 (some (4, 0)) = some (min 4 (2 - 1), min 0 (5 - 1))) ∧
      clampSelected 2 5 (some (4, 0)) = some (1, 0)) :=
  ⟨by decide, by decide, clampSelected_spec 2 5 4 0 (by decide) (by decide)⟩

/-! Claims C6 and C9: validation. -/

/-- Concrete evaluation of `validateParams` at
`inW=4, inH=4, kernel=5, stride=1, padding=0, dilation=1`. -/
theorem validateParams_concrete :
    validateParams ⟨4, 4, 5, 1, 0, 1⟩ =
      [widthMsg ⟨4, 4, 5, 1, 0, 1⟩, heightMsg ⟨4, 4, 5, 1, 0, 1⟩, noOutputMsg] := by
  unfold validateParams
  norm_num [effKernel, outW, outH, outputDimension]

/-- C6. Validation is a total function of the hyperparameter set whose result
is exactly the width diagnostic (when the effective kernel exceeds the padded
width), then the height diagnostic (when it exceeds the padded height), then
the no-output diagnostic (when either output dimension is ≤ 0), in that fixed
order; and `inW=4, padding=0, kernelSize=5, dilation=1` produces the
effective-kernel-larger-than-padded-width entry because `5 > 4`. -/
theorem validateParams_spec (p : Params) :
    validateParams p =
      (if effKernel p > p.inW + 2 * p.padding then [widthMsg p] else []) ++
        (if effKernel p > p.inH + 2 * p.padding then [heightMsg p] else []) ++
        (if outW p ≤ 0 ∨ outH p ≤ 0 then [noOutputMsg] else []) ∧
    (validateParams p).Sublist [widthMsg p, heightMsg p, noOutputMsg] ∧
    widthMsg ⟨4, 4, 5, 1, 0, 1⟩ ∈ validateParams ⟨4, 4, 5, 1, 0, 1⟩ := by
  refine ⟨validateParams_eq p, ?_, ?_⟩
  · rw [validateParams_eq p]
    split_ifs <;> simp
  · rw [validateParams_concrete]
    simp

/-- If the effective kernel exceeds the padded width, the output width is
non-positive. -/
theorem outW_nonpos_of_kernel_exceeds (p : Params) (hs : 1 ≤ p.stride)
    (hgt : effKernel p > p.inW + 2 * p.padding) : outW p ≤ 0 := by
  have hfd := outputDimension_eq_fdiv p.inW p.padding (effKernel p) p.stride hs
  have hneg : p.inW + 2 * p.padding - effKernel p < 0 := by omega
  have hlt : (p.inW + 2 * p.padding - effKernel p) / p.stride < 0 :=
    Int.ediv_neg' hneg (by omega)
  have heq : Int.fdiv (p.inW + 2 * p.padding - effKernel p) p.stride =
      (p.inW + 2 * p.padding - effKernel p) / p.stride :=
    Int.fdiv_eq_ediv _ (by omega)
  unfold outW
  rw [hfd, heq]
  linarith [hlt]

/-- Height-axis version of `outW_nonpos_of_kernel_exceeds`. -/
theorem outH_nonpos_of_kernel_exceeds (p : Params) (hs : 1 ≤ p.stride)
    (hgt : effKernel p > p.inH + 2 * p.padding) : outH p ≤ 0 := by
  have hfd := outputDimension_eq_fdiv p.inH p.padding (effKernel p) p.stride hs
  have hneg : p.inH + 2 * p.padding - effKernel p < 0 := by omega
  have hlt : (p.inH + 2 * p.padding - effKernel p) / p.stride < 0 :=
    Int.ediv_neg' hneg (by omega)
  have heq : Int.fdiv (p.inH + 2 * p.padding - effKernel p) p.stride =
      (p.inH + 2 * p.padding - effKernel p) / p.stride :=
    Int.fdiv_eq_ediv _ (by omega)
  unfold outH
  rw [hfd, heq]
  linarith [hlt]

/-- C9. For `stride ≥ 1`, whenever the validation list contains the
effective-kernel-exceeds-padded-width or -height diagnostic, it also contains
the no-output diagnostic: an oversized effective kernel forces the
corresponding output dimension to be non-positive. -/
theorem diagnostic_implies_noOutput (p : Params) (hs : 1 ≤ p.stride)
    (hmem : widthMsg p ∈ validateParams p ∨ heightMsg p ∈ validateParams p) :
    noOutputMsg ∈ validateParams p := by
  have hdef := validateParams_eq p
  by_cases hno : outW p ≤ 0 ∨ outH p ≤ 0
  · rw [hdef, if_pos hno]
    simp
  · exfalso
    have hw : ¬ effKernel p > p.inW + 2 * p.padding := by
      intro hgt
      exact hno (Or.inl (outW_nonpos_of_kernel_exceeds p hs hgt))
    have hh : ¬ effKernel p > p.inH + 2 * p.padding := by
      intro hgt
      exact hno (Or.inr (outH_nonpos_of_kernel_exceeds p hs hgt))
    rw [hdef, if_neg hw, if_neg hh, if_neg hno] at hmem
    simp at hmem

/-- Witness for `diagnostic_implies_noOutput` at
`inW=4, inH=4, kernel=5, stride=1, padding=0, dilation=1`. -/
theorem diagnostic_implies_noOutput_witness :
    (1 : ℤ) ≤ 1 ∧
    (widthMsg ⟨4, 4, 5, 1, 0, 1⟩ ∈ validateParams ⟨4, 4, 5, 1, 0, 1⟩ ∨
      heightMsg ⟨4, 4, 5, 1, 0, 1⟩ ∈ validateParams ⟨4, 4, 5, 1, 0, 1⟩) ∧
    noOutputMsg ∈ validateParams ⟨4, 4, 5, 1, 0, 1⟩ :=
  ⟨by decide, Or.inl (by simp [validateParams_concrete]),
    diagnostic_implies_noOutput ⟨4, 4, 5, 1, 0, 1⟩ (by decide)
      (Or.inl (by simp [validateParams_concrete]))⟩

/-! Claim C2: taps beyond the 3×3 weight matrix contribute nothing. -/

/-- C2. For `kernelSize > 3`, any input grid and any fixed 3×3 weight matrix,
the accumulated cell value equals the sum over `ky < 3, kx < 3` only — every
tap with `ky ≥ 3` or `kx ≥ 3` contributes exactly nothing — while the
geometry layer still reports the full receptive field: its side equals
`effKernel`, which strictly exceeds the `2*dilation + 1` span of the
contributing taps. -/
theorem convCell_ignores_taps_beyond_three (p : Params) (input : ℤ → ℤ → ℚ)
    (w : List (List ℚ)) (ox oy : ℤ) (hk : 3 < p.kernel) (hd : 1 ≤ p.dilation)
    (hw1 : w.length = 3) (hw2 : (w.headD []).length = 3) :
    convCell p input w ox oy =
      (∑ ky ∈ Finset.range 3, ∑ kx ∈ Finset.range 3,
        sampleAt p input ((rfBounds p ox oy).startX + (kx : ℤ) * p.dilation)
          ((rfBounds p ox oy).startY + (ky : ℤ) * p.dilation) * weightAt w ky kx) ∧
    (rfBounds p ox oy).endX - (rfBounds p ox oy).startX + 1 = effKernel p ∧
    (rfBounds p ox oy).endY - (rfBounds p ox oy).startY + 1 = effKernel p ∧
    2 * p.dilation + 1 < effKernel p := by
  have hK : 3 ≤ p.kernel.toNat := by omega
  refine ⟨?_, by simp only [rfBounds]; ring, by simp only [rfBounds]; ring, ?_⟩
  · unfold convCell
    simp only [hw1, hw2]
    have step1 : ∀ ky : ℕ,
        (∑ kx ∈ Finset.range p.kernel.toNat,
          (if ky < 3 ∧ kx < 3 then
            sampleAt p input ((rfBounds p ox oy).startX + (kx : ℤ) * p.dilation)
              ((rfBounds p ox oy).startY + (ky : ℤ) * p.dilation) * weightAt w ky kx
          else 0)) =
        (if ky < 3 then
          ∑ kx ∈ Finset.range 3,
            sampleAt p input ((rfBounds p ox oy).startX + (kx : ℤ) * p.dilation)
              ((rfBounds p ox oy).startY + (ky : ℤ) * p.dilation) * weightAt w ky kx
        else 0) := by
      intro ky
      by_cases hky : ky < 3
      · rw [if_pos hky, ← sum_range_ite_of_le p.kernel.toNat 3 hK]
        exact Finset.sum_congr rfl fun kx _ => by simp [hky]
      · rw [if_neg hky]
        refine Finset.sum_eq_zero fun kx _ => if_neg fun hc => hky hc.1
    rw [Finset.sum_congr rfl fun ky _ => step1 ky, sum_range_ite_of_le _ _ hK]
  · have h3 : (3 : ℤ) * p.dilation ≤ (p.kernel - 1) * p.dilation :=
      mul_le_mul_of_nonneg_right (by omega) (by omega)
    unfold effKernel
    linarith

/-- Witness for `convCell_ignores_taps_beyond_three` at
`kernel = 5, dilation = 1`, the edge-detect weights, and the input grid
`input y x = x + 2 * y`. -/
theorem convCell_ignores_taps_beyond_three_witness :
    (3 : ℤ) < 5 ∧ (1 : ℤ) ≤ 1 ∧ edgeDetectWeights.length = 3 ∧
    (edgeDetectWeights.headD []).length = 3 ∧
    (convCell ⟨8, 8, 5, 1, 0, 1⟩ (fun y x => (x + 2 * y : ℚ)) edgeDetectWeights 0 0 =
        (∑ ky ∈ Finset.range 3, ∑ kx ∈ Finset.range 3,
          sampleAt ⟨8, 8, 5, 1, 0, 1⟩ (fun y x => (x + 2 * y : ℚ))
            ((rfBounds ⟨8, 8, 5, 1, 0, 1⟩ 0 0).startX + (kx : ℤ) * 1)
            ((rfBounds ⟨8, 8, 5, 1, 0, 1⟩ 0 0).startY + (ky : ℤ) * 1) *
              weightAt edgeDetectWeights ky kx) ∧
      (rfBounds ⟨8, 8, 5, 1, 0, 1⟩ 0 0).endX - (rfBounds ⟨8, 8, 5, 1, 0, 1⟩ 0 0).startX + 1 =
        effKernel ⟨8, 8, 5, 1, 0, 1⟩ ∧
      (rfBounds ⟨8, 8, 5, 1, 0, 1⟩ 0 0).endY - (rfBounds ⟨8, 8, 5, 1, 0, 1⟩ 0 0).startY + 1 =
        effKernel ⟨8, 8, 5, 1, 0, 1⟩ ∧
      2 * (1 : ℤ) + 1 < effKernel ⟨8, 8, 5, 1, 0, 1⟩) :=
  ⟨by decide, by decide, by decide, by decide,
    convCell_ignores_taps_beyond_three ⟨8, 8, 5, 1, 0, 1⟩ (fun y x => (x + 2 * y : ℚ))
      edgeDetectWeights 0 0 (by decide) (by decide) (by decide) (by decide)⟩

/-! Claim C4: identity-kernel round trip. -/

/-- C4. Convolving any integer input grid with the identity preset
(`kernelSize=3, stride=1, dilation=1, padding ≥ 1`) reproduces the input at
every output cell whose receptive-field center lies inside the unpadded
input region: the center is `(ox+1, oy+1)` and the cell value equals the
input sample at the center position. -/
theorem identity_roundtrip (p : Params) (input : ℤ → ℤ → ℤ) (ox oy : ℤ)
    (hker : p.kernel = 3) (hstr : p.stride = 1) (hdil : p.dilation = 1)
    (hpad : 1 ≤ p.padding)
    (hcx : p.padding ≤ kernelCenterX (rfBounds p ox oy) ∧
      kernelCenterX (rfBounds p ox oy) < p.padding + p.inW)
    (hcy : p.padding ≤ kernelCenterY (rfBounds p ox oy) ∧
      kernelCenterY (rfBounds p ox oy) < p.padding + p.inH) :
    kernelCenterX (rfBounds p ox oy) = ox + 1 ∧
    kernelCenterY (rfBounds p ox oy) = oy + 1 ∧
    outputCell p (fun y x => ((input y x : ℤ) : ℚ)) identityWeights ox oy =
      input (oy + 1 - p.padding) (ox + 1 - p.padding) := by
  have heff : effKernel p = 3 := by unfold effKernel; rw [hker, hdil]; ring
  have hsx : (rfBounds p ox oy).startX = ox := by
    simp only [rfBounds, hstr]; ring
  have hsy : (rfBounds p ox oy).startY = oy := by
    simp only [rfBounds, hstr]; ring
  have hex : (rfBounds p ox oy).endX = ox + 2 := by
    simp only [rfBounds, hstr, heff]; ring
  have hey : (rfBounds p ox oy).endY = oy + 2 := by
    simp only [rfBounds, hstr, heff]; ring
  obtain ⟨hmx, hmy⟩ := center_exact p (by rw [hker]; exact ⟨1, by norm_num⟩) ox oy
  rw [hsx, hex] at hmx
  rw [hsy, hey] at hmy
  have hcenx : kernelCenterX (rfBounds p ox oy) = ox + 1 := by omega
  have hceny : kernelCenterY (rfBounds p ox oy) = oy + 1 := by omega
  refine ⟨hcenx, hceny, ?_⟩
  rw [hcenx] at hcx
  rw [hceny] at hcy
  have hK : p.kernel.toNat = 3 := by omega
  have hsum : convCell p (fun y x => ((input y x : ℤ) : ℚ)) identityWeights ox oy =
      ((input (oy + 1 - p.padding) (ox + 1 - p.padding) : ℤ) : ℚ) := by
    unfold convCell
    rw [hK]
    simp only [Finset.sum_range_succ, Finset.sum_range_zero, hsx, hsy, hdil]
    norm_num [identityWeights, weightAt, List.getD]
    rw [sampleAt, if_pos ⟨hcy.1, hcy.2, hcx.1, hcx.2⟩]
  unfold outputCell jsRound
  rw [hsum, Int.floor_int_add]
  norm_num

/-- Witness for `identity_roundtrip` at `inW=4, inH=4, padding=1`, output
cell `(0,0)` and the input grid `input y x = 10*y + x`. -/
theorem identity_roundtrip_witness :
    Params.kernel ⟨4, 4, 3, 1, 1, 1⟩ = 3 ∧ Params.stride ⟨4, 4, 3, 1, 1, 1⟩ = 1 ∧
    Params.dilation ⟨4, 4, 3, 1, 1, 1⟩ = 1 ∧ (1 : ℤ) ≤ Params.padding ⟨4, 4, 3, 1, 1, 1⟩ ∧
    (Params.padding ⟨4, 4, 3, 1, 1, 1⟩ ≤ kernelCenterX (rfBounds ⟨4, 4, 3, 1, 1, 1⟩ 0 0) ∧
      kernelCenterX (rfBounds ⟨4, 4, 3, 1, 1, 1⟩ 0 0) <
        Params.padding ⟨4, 4, 3, 1, 1, 1⟩ + Params.inW ⟨4, 4, 3, 1, 1, 1⟩) ∧
    (Params.padding ⟨4, 4, 3, 1, 1, 1⟩ ≤ kernelCenterY (rfBounds ⟨4, 4, 3, 1, 1, 1⟩ 0 0) ∧
      kernelCenterY (rfBounds ⟨4, 4, 3, 1, 1, 1⟩ 0 0) <
        Params.padding ⟨4, 4, 3, 1, 1, 1⟩ + Params.inH ⟨4, 4, 3, 1, 1, 1⟩) ∧
    (kernelCenterX (rfBounds ⟨4, 4, 3, 1, 1, 1⟩ 0 0) = 0 + 1 ∧
      kernelCenterY (rfBounds ⟨4, 4, 3, 1, 1, 1⟩ 0 0) = 0 + 1 ∧
      outputCell ⟨4, 4, 3, 1, 1, 1⟩ (fun y x => ((10 * y + x : ℤ) : ℚ)) identityWeights 0 0 =
        10 * (0 + 1 - Params.padding ⟨4, 4, 3, 1, 1, 1⟩) +
          (0 + 1 - Params.padding ⟨4, 4, 3, 1, 1, 1⟩)) :=
  ⟨rfl, rfl, rfl, by norm_num,
    by norm_num [kernelCenterX, rfBounds, effKernel],
    by norm_num [kernelCenterY, rfBounds, effKernel],
    identity_roundtrip ⟨4, 4, 3, 1, 1, 1⟩ (fun y x => (10 * y + x : ℤ)) 0 0 rfl rfl rfl
      (by norm_num)
      (by norm_num [kernelCenterX, rfBounds, effKernel])
      (by norm_num [kernelCenterY, rfBounds, effKernel])⟩

/-! Claim C7: tap-set cardinality. -/

/-- Membership in `tapSet` is exactly `isInDilatedKernel`. -/
theorem mem_tapSet {rf : RF} {effK d : ℤ} {q : ℤ × ℤ} :
    q ∈ tapSet rf effK d ↔ isInDilatedKernel rf effK d q.1 q.2 := by
  simp only [tapSet, Finset.mem_filter, Finset.mem_product, Finset.mem_Ico,
    isInDilatedKernel]
  constructor
  · rintro ⟨-, h⟩
    exact h
  · rintro ⟨a1, a2, a3, a4, a5, a6⟩
    exact ⟨⟨⟨by omega, by omega⟩, by omega, by omega⟩, a1, a2, a3, a4, a5, a6⟩

/-- The set `tapSet` splits as a product of per-axis tap sets. -/
theorem tapSet_eq_product (rf : RF) (effK d : ℤ) :
    tapSet rf effK d = (axisTaps rf.startX effK d) ×ˢ (axisTaps rf.startY effK d) := by
  ext ⟨x, y⟩
  simp only [mem_tapSet, Finset.mem_product, axisTaps, Finset.mem_filter,
    Finset.mem_Ico, isInDilatedKernel]
  constructor
  · rintro ⟨a1, a2, a3, a4, a5, a6⟩
    exact ⟨⟨⟨by omega, by omega⟩, a1, a2, a5⟩, ⟨by omega, by omega⟩, a3, a4, a6⟩
  · rintro ⟨⟨-, c1, c2, c3⟩, -, c4, c5, c6⟩
    exact ⟨c1, c2, c4, c5, c3, c6⟩

/-- The per-axis tap set of an effective kernel `(k-1)*d + 1` is the image of
`range k` under `i ↦ s + i*d`. -/
theorem axisTaps_eq_image (s k d : ℤ) (hk : 1 ≤ k) (hd : 1 ≤ d) :
    axisTaps s ((k - 1) * d + 1) d =
      (Finset.range k.toNat).image fun i : ℕ => s + (i : ℤ) * d := by
  ext x
  simp only [axisTaps, Finset.mem_filter, Finset.mem_Ico, Finset.mem_image,
    Finset.mem_range]
  constructor
  · rintro ⟨⟨h1, h2⟩, h3, h4, h5⟩
    obtain ⟨i, hi⟩ := Int.dvd_of_emod_eq_zero h5
    have hi0 : 0 ≤ i := by nlinarith
    have hik : i ≤ k - 1 := by nlinarith
    refine ⟨i.toNat, by omega, ?_⟩
    rw [Int.toNat_of_nonneg hi0, mul_comm]
    linarith [hi]
  · rintro ⟨i, hik, rfl⟩
    have hik' : (i : ℤ) ≤ k - 1 := by omega
    have h1 : (0 : ℤ) ≤ (i : ℤ) * d := mul_nonneg (by positivity) (by omega)
    have h2 : (i : ℤ) * d ≤ (k - 1) * d := mul_le_mul_of_nonneg_right hik' (by omega)
    have h3 : s + (i : ℤ) * d - s = (i : ℤ) * d := by ring
    refine ⟨⟨by linarith, by linarith⟩, by linarith, by linarith, ?_⟩
    rw [h3]
    exact Int.emod_eq_zero_of_dvd (dvd_mul_left d i)

/-- C7. For every `kernelSize ≥ 1` and `dilation ≥ 1`, the tap set of a
receptive field with `effectiveKernel = (kernelSize-1)*dilation + 1` has
exactly `kernelSize²` elements. -/
theorem tapSet_card (k d : ℤ) (rf : RF) (hk : 1 ≤ k) (hd : 1 ≤ d) :
    ((tapSet rf ((k - 1) * d + 1) d).card : ℤ) = k ^ 2 := by
  have hinj : Function.Injective fun i : ℕ => rf.startX + (i : ℤ) * d := by
    intro i j hij
    simp only at hij
    have hd0 : d ≠ 0 := by omega
    have : (i : ℤ) * d = (j : ℤ) * d := by linarith
    exact_mod_cast mul_right_cancel₀ hd0 this
  have hinjY : Function.Injective fun i : ℕ => rf.startY + (i : ℤ) * d := by
    intro i j hij
    simp only at hij
    have hd0 : d ≠ 0 := by omega
    have : (i : ℤ) * d = (j : ℤ) * d := by linarith
    exact_mod_cast mul_right_cancel₀ hd0 this
  rw [tapSet_eq_product, Finset.card_product,
    axisTaps_eq_image rf.startX k d hk hd, axisTaps_eq_image rf.startY k d hk hd,
    Finset.card_image_of_injective _ hinj, Finset.card_image_of_injective _ hinjY,
    Finset.card_range]
  have hcast : ((k.toNat : ℕ) : ℤ) = k := Int.toNat_of_nonneg (by omega)
  rw [Nat.cast_mul, hcast]
  ring

/-- Witness for `tapSet_card` at `kernelSize = 3, dilation = 2` and the
receptive field anchored at `(0, 0)`: `effectiveKernel = 5` and the tap set
has `9` elements. -/
theorem tapSet_card_witness :
    (1 : ℤ) ≤ 3 ∧ (1 : ℤ) ≤ 2 ∧
    ((tapSet ⟨0, 0, 4, 4⟩ ((3 - 1) * 2 + 1) 2).card : ℤ) = 3 ^ 2 :=
  ⟨by decide, by decide, tapSet_card 3 2 ⟨0, 0, 4, 4⟩ (by decide) (by decide)⟩

end CnnPlayground
